import Mathlib

/-!
Shallow embedding of `mode-s-demodulator-ts` (src/index.ts): the Mode S
magnitude lookup table, magnitude computer, and the `detectMessage` scan
loop with its phase-correction retry, together with theorems checking the
repository's specification claims against this embedding.

Conventions used throughout:
* JS `Uint16Array` / `Uint8Array` buffers are `List Nat`; an out-of-range
  read (`undefined`, which becomes `NaN` and then 0 on a typed-array store)
  is `tget` (= `getD _ 0`), and an out-of-range write is silently dropped
  (`tset`), matching typed-array semantics.
* JS float divisions that feed comparisons (`high`, `/3`, the quality-gate
  average) are modelled by exact cross-multiplied integer tests; for the
  magnitudes involved (< 2^16, tiny divisors) the double computations in the
  source are exact enough that the comparisons provably coincide (see the
  `*_compare_model` / `*_rat_model` lemmas).
* The external collaborators `mode-s-decoder` and `mode-s-msglen` are not
  part of this repository; they are passed in as opaque parameters
  (`parse`, `msgLenOf`), exactly as the spec treats them.
-/

namespace ModeS

/-- `PREAMBLE_US = 8` (src/index.ts line 6). -/
def PREAMBLE_US : Nat := 8

/-- `msgLen.LONG_MSG_BITS` from the external `mode-s-msglen` collaborator;
the spec fixes the maximum message size at 112 bits. -/
def LONG_MSG_BITS : Nat := 112

/-- `msgLen.SHORT_MSG_BITS`; the spec's "short-message region" is the first
56 bits. -/
def SHORT_MSG_BITS : Nat := 56

/-- `FULL_LEN = PREAMBLE_US + msgLen.LONG_MSG_BITS` (line 7). -/
def FULL_LEN : Nat := PREAMBLE_US + LONG_MSG_BITS

/-- Typed-array read: an in-range index yields the element, an out-of-range
index yields `undefined`, which every numeric use in this code turns into 0. -/
def tget (l : List Nat) (i : Nat) : Nat := l.getD i 0

/-- Typed-array write: out-of-range stores are silently ignored. -/
def tset (l : List Nat) (i : Nat) (v : Nat) : List Nat :=
  if i < l.length then l.set i v else l

/-- Digit-by-digit integer square root with explicit fuel (structural, so
the kernel can evaluate it; `Nat.sqrt`'s well-founded recursion cannot be
reduced by the kernel).  `sqrtAux_isSqrt` proves it computes `⌊√n⌋`. -/
def sqrtAux : Nat → Nat → Nat
  | 0, _ => 0
  | fuel + 1, n =>
    if n = 0 then 0
    else
      let r := 2 * sqrtAux fuel (n / 4)
      if (r + 1) * (r + 1) ≤ n then r + 1 else r

/-- `⌊√n⌋` (kernel-computable). -/
def natSqrt (n : Nat) : Nat := sqrtAux n n

/-- The value the constructor stores at lookup-table index `i*129 + q`:
`Math.round(Math.sqrt(i*i + q*q) * 360)` (line 92).  Encoded exactly over ℕ:
`round x = ⌊x + 1/2⌋` and `⌊2·360·√n⌋ = ⌊√(4·360²·n)⌋`, so the rounded
value is `(⌊√(518400·n)⌋ + 1) / 2`, provably equal to
`round (√(i² + q²) · 360)` over ℝ.  (For every pair in range the IEEE-double
computation in the source agrees with exact real rounding.) -/
def lutValue (i q : Nat) : Nat :=
  (natSqrt (518400 * (i * i + q * q)) + 1) / 2

/-- Allocated length of the table: `new Uint16Array(129 * 129 * 2)` (line 89). -/
def MAG_LUT_length : Nat := 129 * 129 * 2

/-- Entry of `MAG_LUT` at a flat index.  The constructor loop writes index
`i*129 + q := round(sqrt(i² + q²)·360)` once for each `i, q ∈ [0,128]`; those
indices are exactly `0 .. 128*129+128` and determine `(i, q) = (idx / 129,
idx % 129)`.  Every other allocated entry keeps its initial value 0. -/
def MAG_LUT (idx : Nat) : Nat :=
  if idx ≤ 128 * 129 + 128 then lutValue (idx / 129) (idx % 129) else 0

/-- Magnitude of the `k`-th I/Q pair in the unsigned encoding: both bytes are
biased by 127 and the absolute deviations index the lookup table
(lines 129-140). -/
def pairMag (data : List Nat) (k : Nat) : Nat :=
  MAG_LUT ((((tget data (2 * k) : Int) - 127).natAbs) * 129 +
    (((tget data (2 * k + 1) : Int) - 127).natAbs))

/-- One step of the unsigned loop body at `j = 2k`.  When a byte read runs
past the end of `data`, JS yields `undefined`; the subtraction produces `NaN`,
the lookup `MAG_LUT[NaN]` is `undefined`, and the typed-array store coerces it
to 0 — so the stored value is 0 in that case. -/
def uMagStore (data : List Nat) (k : Nat) : Nat :=
  match data[2 * k]?, data[2 * k + 1]? with
  | some _, some _ => pairMag data k
  | _, _ => 0

/-- The unsigned branch of `computeMagnitudeVector` (lines 129-140): the loop
runs `j = 0, 2, 4, …` while `j < size`, i.e. `⌈size/2⌉` iterations, storing
`mag[j/2] := MAG_LUT[i*129+q]`. -/
def cmvU (data mag : List Nat) (size : Nat) : List Nat :=
  (List.range ((size + 1) / 2)).foldl (fun m k => tset m k (uMagStore data k)) mag

/-- `Buffer.readInt8`: in range it returns the byte reinterpreted as a signed
8-bit integer; out of range it throws a `RangeError`. -/
def readInt8 (data : List Nat) (j : Nat) : Except Unit Int :=
  if h : j < data.length then
    .ok (if 128 ≤ data.get ⟨j, h⟩ then (data.get ⟨j, h⟩ : Int) - 256
         else (data.get ⟨j, h⟩ : Int))
  else .error ()

/-- The signed branch of `computeMagnitudeVector` (lines 114-127). -/
def cmvS (data mag : List Nat) (size : Nat) : Except Unit (List Nat) :=
  (List.range ((size + 1) / 2)).foldlM
    (fun m k => do
      let i ← readInt8 data (2 * k)
      let q ← readInt8 data (2 * k + 1)
      pure (tset m k (MAG_LUT (i.natAbs * 129 + q.natAbs))))
    mag

/-- `computeMagnitudeVector(data, mag, size, signedInt)` (lines 111-142).
The function contains no precondition check: the unsigned path always
returns normally (`.ok`), and the signed path fails only because
`readInt8` itself throws past the end of `data`. -/
def computeMagnitudeVector (data mag : List Nat) (size : Nat)
    (signedInt : Bool) : Except Unit (List Nat) :=
  if signedInt then cmvS data mag size else .ok (cmvU data mag size)

/-- `detectOutOfPhase(mag, offset)` (lines 332-346).  Each source rule
compares `mag[x] > mag[y] / 3`; the division is a float division, and the
comparison is equivalent to the exact cross-multiplied test
`3 · mag[x] > mag[y]` used here (see `third_compare_model`).  The source
reads `mag[offset + -1]` in the last rule; the detector only calls this
with `offset > 0`. -/
def detectOutOfPhase (mag : List Nat) (offset : Nat) : Int :=
  if 3 * tget mag (offset + 3) > tget mag (offset + 2) then 1
  else if 3 * tget mag (offset + 10) > tget mag (offset + 9) then 1
  else if 3 * tget mag (offset + 6) > tget mag (offset + 7) then -1
  else if 3 * tget mag (offset - 1) > tget mag (offset + 1) then -1
  else 0

/-- The "One" store of `applyPhaseCorrection` (line 379):
`mag[…] = (mag[…] * 5) / 4` truncated and stored into a `Uint16Array`,
hence reduced modulo 2^16. -/
def scaleUp (m : Nat) : Nat := m * 5 / 4 % 65536

/-- The "Zero" store of `applyPhaseCorrection` (line 382):
`mag[…] = (mag[…] * 4) / 5`, likewise stored modulo 2^16 (never wraps). -/
def scaleDown (m : Nat) : Nat := m * 4 / 5 % 65536

/-- `applyPhaseCorrection(mag, offset)` (lines 374-385): `j` runs over
`16, 18, …, 220` (`j < (LONG_MSG_BITS - 1) * 2`), each step rescaling the
leading sample of the next bit pair in place. -/
def applyPhaseCorrection (mag : List Nat) (offset : Nat) : List Nat :=
  (List.range' 16 (((LONG_MSG_BITS - 1) * 2 - 16) / 2) 2).foldl
    (fun m j =>
      if tget m (offset + j) > tget m (offset + j + 1) then
        tset m (offset + j + 2) (scaleUp (tget m (offset + j + 2)))
      else
        tset m (offset + j + 2) (scaleDown (tget m (offset + j + 2))))
    mag

/-- `memcpy(dst, dstOffset, src, srcOffset, length)` (lines 387-391),
translated exactly as written: the loop variable runs `i = srcOffset;
i < length`, writing `dst[dstOffset + i] = src[i]` — note this is *not*
the usual memcpy contract. -/
def memcpy (dst : List Nat) (dstOffset : Nat) (src : List Nat)
    (srcOffset len : Nat) : List Nat :=
  (List.range' srcOffset (len - srcOffset)).foldl
    (fun d i => tset d (dstOffset + i) (tget src i)) dst

/-- Lines 176-183: the correction-retry preparation — snapshot the window
into `aux` and, when `j ≠ 0` and the out-of-phase heuristic fires, apply
phase correction.  Returns the magnitude buffer used for bit slicing and
the updated `aux`. -/
def retryPrepare (mag aux : List Nat) (j : Nat) : List Nat × List Nat :=
  let aux1 := memcpy aux 0 mag (j + PREAMBLE_US * 2) (LONG_MSG_BITS * 2)
  let mag1 := if j ≠ 0 ∧ detectOutOfPhase mag j ≠ 0
              then applyPhaseCorrection mag j else mag
  (mag1, aux1)

/-- Lines 251-254: "Restore the original message if we used magnitude
correction" — `memcpy(mag, j + PREAMBLE_US * 2, aux, 0, aux.length)`. -/
def retryRestore (mag aux : List Nat) (j : Nat) : List Nat :=
  memcpy mag (j + PREAMBLE_US * 2) aux 0 (LONG_MSG_BITS * 2)

/-- The bit-slicing loop (lines 224-249), as a recursion on the number of
bits decoded so far.  Returns the `bits` array (values 0/1/2) together with
the running `errors` counter.  Source loop variable `i = 2 * b`. -/
def sliceLoop (mag : List Nat) (j : Nat) : Nat → List Nat × Nat
  | 0 => ([], 0)
  | b + 1 =>
    let p := sliceLoop mag j b
    let low := tget mag (j + 2 * b + PREAMBLE_US * 2)
    let high := tget mag (j + 2 * b + PREAMBLE_US * 2 + 1)
    let delta := ((low : Int) - high).natAbs
    if 0 < b ∧ delta < 256 then (p.1 ++ [p.1.getD (b - 1) 0], p.2)
    else if low = high then
      (p.1 ++ [2], if 2 * b < SHORT_MSG_BITS * 2 then p.2 + 1 else p.2)
    else if high < low then (p.1 ++ [1], p.2)
    else (p.1 ++ [0], p.2)

/-- Bit packing (lines 257-267): each output byte ORs eight bit values,
MSB first, and is stored in a `Uint8Array`, hence reduced modulo 256
(erased bits carry value 2, so the OR can set bit 8). -/
def packMsg (bits : List Nat) : List Nat :=
  (List.range (LONG_MSG_BITS / 8)).map fun b =>
    (tget bits (8 * b) <<< 7 ||| tget bits (8 * b + 1) <<< 6 |||
     tget bits (8 * b + 2) <<< 5 ||| tget bits (8 * b + 3) <<< 4 |||
     tget bits (8 * b + 4) <<< 3 ||| tget bits (8 * b + 5) <<< 2 |||
     tget bits (8 * b + 6) <<< 1 ||| tget bits (8 * b + 7)) % 256

/-- The quality-gate accumulator (lines 274-278): the sum of
`Math.abs(mag[j + i + 16] - mag[j + i + 17])` over `i = 0, 2, …,
< msglen * 8 * 2`, i.e. over the `msglen * 8` bit positions of the resolved
message, where `msglen` is the message length in *bytes*. -/
def deltaSum (mag : List Nat) (j : Nat) (msglenBytes : Nat) : Nat :=
  ((List.range (msglenBytes * 8)).map fun b =>
    ((tget mag (j + 2 * b + PREAMBLE_US * 2) : Int) -
      tget mag (j + 2 * b + PREAMBLE_US * 2 + 1)).natAbs).sum

/-- The quality gate (lines 279-287): `delta /= msglen * 4;
if (delta < 10 * 255) …` — a float division; the comparison
`sum / (msglen·4) < 2550` is equivalent to the exact cross-multiplied test
`sum < 2550 · (msglen·4)` used here (see `qualityReject_rat_model`).  When
`msglen = 0` the JS division yields `NaN`/`Infinity`, so the `<` comparison
is false and no rejection happens; that case is made explicit. -/
def qualityReject (mag : List Nat) (j : Nat) (msglenBytes : Nat) : Bool :=
  if msglenBytes = 0 then false
  else decide (deltaSum mag j msglenBytes < 10 * 255 * (msglenBytes * 4))

/-- The quality gate as the claim words it (refinement comparison only):
with `Lbits` the resolved message *bit* length, sum over the bit positions
and divide by `Lbits * 4` (same cross-multiplied encoding of the float
comparison as `qualityReject`). -/
def qualityRejectSpec (mag : List Nat) (j : Nat) (Lbits : Nat) : Bool :=
  if Lbits = 0 then false
  else decide (deltaSum mag j (Lbits / 8) < 10 * 255 * (Lbits * 4))

/-- The first-pass preamble shape test (lines 188-197). -/
def preamblePattern (mag : List Nat) (j : Nat) : Bool :=
  decide (tget mag j > tget mag (j + 1) ∧
    tget mag (j + 1) < tget mag (j + 2) ∧
    tget mag (j + 2) > tget mag (j + 3) ∧
    tget mag (j + 3) < tget mag j ∧
    tget mag (j + 4) < tget mag j ∧
    tget mag (j + 5) < tget mag j ∧
    tget mag (j + 6) < tget mag j ∧
    tget mag (j + 7) > tget mag (j + 8) ∧
    tget mag (j + 8) < tget mag (j + 9) ∧
    tget mag (j + 9) > tget mag (j + 6))

/-- Six times `high` (line 205): the source computes the float
`high = (mag[j] + mag[j+2] + mag[j+7] + mag[j+9]) / 6` and only ever
compares samples against it; `m ≥ high` is equivalent to the exact
cross-multiplied test `6·m ≥ highSum` (see `sixth_compare_model`). -/
def highSum (mag : List Nat) (j : Nat) : Nat :=
  tget mag j + tget mag (j + 2) + tget mag (j + 7) + tget mag (j + 9)

/-- The inter-spike noise test (lines 206-209): reject when `mag[j+4]` or
`mag[j+5]` reaches `high`. -/
def spikeNoise (mag : List Nat) (j : Nat) : Bool :=
  decide (6 * tget mag (j + 4) ≥ highSum mag j ∨
    6 * tget mag (j + 5) ≥ highSum mag j)

/-- The post-preamble guard test (lines 214-219): reject when any of
`mag[j+11..j+14]` reaches `high`. -/
def guardNoise (mag : List Nat) (j : Nat) : Bool :=
  decide (6 * tget mag (j + 11) ≥ highSum mag j ∨
    6 * tget mag (j + 12) ≥ highSum mag j ∨
    6 * tget mag (j + 13) ≥ highSum mag j ∨
    6 * tget mag (j + 14) ≥ highSum mag j)

/-- The callback-delivery gate (line 310): `mm.crcOk || !this.options.checkCrc`. -/
def deliveryGate (checkCrc crcOk : Bool) : Bool := crcOk || !checkCrc

/-- The slice of the decoder result that the scan loop observes and what the
callback receives: the packed message bytes, the decoder's CRC verdict, and
the `phaseCorrected` annotation the loop may set (line 302). -/
structure Msg where
  msg : List Nat
  crcOk : Bool
  phaseCorrected : Bool
  deriving Repr, DecidableEq

/-- The mutable state of one `detectMessage` scan: the loop index `j`, the
`useCorrection` flag, the (in-place corrected/restored) magnitude buffer,
the persistent `aux` scratch buffer, and the callback invocations so far. -/
structure ScanState where
  j : Nat
  useCorrection : Bool
  mag : List Nat
  aux : List Nat
  out : List Msg
  deriving Repr, DecidableEq

/-- The common tail of one loop iteration (lines 224-321): bit slicing,
restore-on-correction, packing, type/length resolution, quality gate,
acceptance, decoder call, callback delivery, and the advance/rewind logic
(`j--` before the `for` increment leaves `j` unchanged). -/
def scanTail (parse : List Nat → Bool → Bool) (msgLenOf : Nat → Nat)
    (aggressive checkCrc crcOnly : Bool) (j : Nat) (uc : Bool)
    (mag1 aux1 : List Nat) (out : List Msg) : ScanState :=
  let bs := sliceLoop mag1 j LONG_MSG_BITS
  let mag2 := if uc then retryRestore mag1 aux1 j else mag1
  let msg := packMsg bs.1
  let msgtype := tget msg 0 >>> 3
  let msglen := msgLenOf msgtype / 8
  if qualityReject mag2 j msglen then ⟨j + 1, false, mag2, aux1, out⟩
  else if bs.2 = 0 ∨ (aggressive ∧ bs.2 < 3) then
    let crcOk := parse msg crcOnly
    let j2 := if crcOk then j + (PREAMBLE_US + msglen * 8) * 2 else j
    let out2 := if deliveryGate checkCrc crcOk
                then out ++ [⟨msg, crcOk, uc && crcOk⟩] else out
    if ¬crcOk ∧ ¬uc then ⟨j, true, mag2, aux1, out2⟩
    else ⟨j2 + 1, false, mag2, aux1, out2⟩
  else if ¬uc then ⟨j, true, mag2, aux1, out⟩
  else ⟨j + 1, false, mag2, aux1, out⟩

/-- One full iteration of the scan loop body (lines 172-321). -/
def stepBody (parse : List Nat → Bool → Bool) (msgLenOf : Nat → Nat)
    (aggressive checkCrc crcOnly : Bool) (s : ScanState) : ScanState :=
  if s.useCorrection then
    let p := retryPrepare s.mag s.aux s.j
    scanTail parse msgLenOf aggressive checkCrc crcOnly s.j true p.1 p.2 s.out
  else if ¬preamblePattern s.mag s.j then
    ⟨s.j + 1, s.useCorrection, s.mag, s.aux, s.out⟩
  else if spikeNoise s.mag s.j then
    ⟨s.j + 1, s.useCorrection, s.mag, s.aux, s.out⟩
  else if guardNoise s.mag s.j then
    ⟨s.j + 1, s.useCorrection, s.mag, s.aux, s.out⟩
  else
    scanTail parse msgLenOf aggressive checkCrc crcOnly s.j false s.mag s.aux s.out

/-- Termination measure for the scan: `j` strictly increases except for the
single rewind per offset, which flips `useCorrection` from false to true. -/
def scanMeasure (B : Nat) (s : ScanState) : Nat :=
  2 * (B - s.j) + cond s.useCorrection 0 1

/-- The scan loop `for (j = 0; j < maglen - FULL_LEN * 2; j++)` (line 172),
together with the ghost trace of examined `(offset, useCorrection)` pairs.
Its totality is the termination half of the spec's progress guarantee. -/
def scanLoopT (parse : List Nat → Bool → Bool) (msgLenOf : Nat → Nat)
    (aggressive checkCrc crcOnly : Bool) (B : Nat) (s : ScanState) :
    ScanState × List (Nat × Bool) :=
  if h : s.j < B then
    let r := scanLoopT parse msgLenOf aggressive checkCrc crcOnly B
      (stepBody parse msgLenOf aggressive checkCrc crcOnly s)
    (r.1, (s.j, s.useCorrection) :: r.2)
  else (s, [])
termination_by scanMeasure B s
decreasing_by
  simp only [stepBody, scanTail, scanMeasure]
  repeat' split
  all_goals
    simp_all only [Bool.not_eq_true, cond_true, cond_false, not_true,
      not_false_iff, and_false, false_and, not_and, Bool.true_eq_false]
  all_goals omega

/-- `detectMessage(mag, maglen, onMsg)` (lines 144-323), returning the final
scan state together with the trace of examined offsets.  `bits`, `msg` and
`aux` are allocated once in the source; `bits` and `msg` are fully
overwritten every iteration (recomputed here), while `aux` persists and is
threaded through the state, initialized to zeros. -/
def detectMessageFull (parse : List Nat → Bool → Bool) (msgLenOf : Nat → Nat)
    (aggressive checkCrc crcOnly : Bool) (mag : List Nat) (maglen : Nat) :
    ScanState × List (Nat × Bool) :=
  scanLoopT parse msgLenOf aggressive checkCrc crcOnly (maglen - FULL_LEN * 2)
    ⟨0, false, mag, List.replicate (LONG_MSG_BITS * 2) 0, []⟩

/-- `detectMessage` proper: the callback sequence and final buffers. -/
def detectMessage (parse : List Nat → Bool → Bool) (msgLenOf : Nat → Nat)
    (aggressive checkCrc crcOnly : Bool) (mag : List Nat) (maglen : Nat) :
    ScanState :=
  (detectMessageFull parse msgLenOf aggressive checkCrc crcOnly mag maglen).1

/-- The `DemodulatorOptions` object a caller may pass to the constructor
(each field possibly `undefined`, the whole object possibly `undefined`). -/
structure InOptions where
  aggressive : Option Bool
  checkCrc : Option Bool
  crcOnly : Option Bool
  mag : Option (List Nat)

/-- The options record the constructor stores (lines 74-79). -/
structure Options where
  aggressive : Bool
  checkCrc : Bool
  crcOnly : Bool
  mag : Option (List Nat)

/-- JS `x || d` for an optional boolean `x`: the first truthy operand. -/
def jsOr (v : Option Bool) (d : Bool) : Bool :=
  match v with
  | some true => true
  | _ => d

/-- Field access through `options?.` when the whole object may be absent. -/
def oget {α : Type} (o : Option InOptions) (f : InOptions → Option α) : Option α :=
  match o with
  | some x => f x
  | none => none

/-- The constructor's option normalization (lines 74-79):
`aggressive: options?.aggressive !== false`, `checkCrc: options?.checkCrc ||
true`, `crcOnly: options?.crcOnly || false`, `mag: options?.mag || null`. -/
def mkOptions (o : Option InOptions) : Options where
  aggressive := decide (oget o InOptions.aggressive ≠ some false)
  checkCrc := jsOr (oget o InOptions.checkCrc) true
  crcOnly := jsOr (oget o InOptions.crcOnly) false
  mag := oget o InOptions.mag

/-- A `Demodulator` instance: the stored options plus the private `_mag`
buffer, `undefined` until the first `process` call (lines 66-95). -/
structure Demodulator where
  options : Options
  _mag : Option (List Nat)

/-- `new Demodulator(options)` — `_mag` starts out unset; the user-supplied
`options.mag` is stored in `options` but never read again. -/
def mkDemodulator (o : Option InOptions) : Demodulator :=
  ⟨mkOptions o, none⟩

/-- `process(data, size, onMsg)` (lines 97-108): allocate `_mag` of length
`size / 2` on first use, fill it via the unsigned magnitude computer, then
scan it with `maglen = size / 2`; the in-place mutations of `_mag` persist
into the instance. -/
def process (parse : List Nat → Bool → Bool) (msgLenOf : Nat → Nat)
    (d : Demodulator) (data : List Nat) (size : Nat) :
    Demodulator × List Msg :=
  let magArr := match d._mag with
    | some m => m
    | none => List.replicate (size / 2) 0
  let magArr1 := cmvU data magArr size
  let st := detectMessage parse msgLenOf d.options.aggressive
    d.options.checkCrc d.options.crcOnly magArr1 (size / 2)
  (⟨d.options, some st.mag⟩, st.out)

/-- A sequence of `process` calls on one instance, concatenating the
callback invocations. -/
def processAll (parse : List Nat → Bool → Bool) (msgLenOf : Nat → Nat)
    (d : Demodulator) : List (List Nat × Nat) → Demodulator × List Msg
  | [] => (d, [])
  | (data, size) :: rest =>
    let r := process parse msgLenOf d data size
    let r2 := processAll parse msgLenOf r.1 rest
    (r2.1, r.2 ++ r2.2)

/-- The relation between consecutive examined `(offset, correction)` pairs
asserted by the progress guarantee: either the offset strictly increased, or
it is the single-step rewind into a correction retry of the same offset. -/
def stepRel (x y : Nat × Bool) : Prop :=
  x.1 < y.1 ∨ (y.1 = x.1 ∧ x.2 = false ∧ y.2 = true)

/-!  ## Theorems  -/

/-- The bracketing property of the fuel-based square root: with enough fuel
it computes `⌊√n⌋`. -/
theorem sqrtAux_isSqrt : ∀ fuel n, n ≤ fuel →
    sqrtAux fuel n * sqrtAux fuel n ≤ n ∧
      n < (sqrtAux fuel n + 1) * (sqrtAux fuel n + 1) := by
  intro fuel
  induction fuel with
  | zero => intro n hn; interval_cases n; simp [sqrtAux]
  | succ f ih =>
    intro n hn
    by_cases h0 : n = 0
    · subst h0; simp [sqrtAux]
    · have hfuel : n / 4 ≤ f := by omega
      obtain ⟨ih1, ih2⟩ := ih (n / 4) hfuel
      simp only [sqrtAux, if_neg h0]
      set r0 := sqrtAux f (n / 4) with hr0
      have hdiv1 : 4 * (n / 4) ≤ n := by omega
      have hdiv2 : n ≤ 4 * (n / 4) + 3 := by omega
      split
      · constructor
        · assumption
        · nlinarith [ih2, hdiv2]
      · constructor
        · nlinarith [ih1, hdiv1]
        · omega

/-- `⌊√·⌋` is monotone. -/
theorem natSqrt_le_natSqrt {a b : Nat} (h : a ≤ b) : natSqrt a ≤ natSqrt b := by
  obtain ⟨ha1, _⟩ := sqrtAux_isSqrt a a le_rfl
  obtain ⟨_, hb2⟩ := sqrtAux_isSqrt b b le_rfl
  simp only [natSqrt]
  by_contra hcon
  push_neg at hcon
  have h1 : sqrtAux b b + 1 ≤ sqrtAux a a := hcon
  have h2 : (sqrtAux b b + 1) * (sqrtAux b b + 1) ≤ sqrtAux a a * sqrtAux a a :=
    Nat.mul_le_mul h1 h1
  omega

/-- Fidelity of the cross-multiplied `/3` comparisons in
`detectOutOfPhase`: `b < 3·a` is exactly the source's `a > b / 3`
(an exact rational comparison — the doubles involved are far from the
decision boundary, so the float comparison agrees with the rational one). -/
theorem third_compare_model (a b : Nat) : (b < 3 * a) ↔ ((b : ℚ) / 3 < (a : ℚ)) := by
  rw [div_lt_iff (by norm_num : (0 : ℚ) < 3)]
  rw [show (a : ℚ) * 3 = ((3 * a : Nat) : ℚ) by push_cast; ring]
  exact_mod_cast Iff.rfl

/-- Fidelity of the cross-multiplied `high` comparisons: `highSum ≤ 6·m` is
exactly the source's `m ≥ (mag[j] + mag[j+2] + mag[j+7] + mag[j+9]) / 6`. -/
theorem sixth_compare_model (m S : Nat) : (S ≤ 6 * m) ↔ ((S : ℚ) / 6 ≤ (m : ℚ)) := by
  rw [div_le_iff (by norm_num : (0 : ℚ) < 6)]
  rw [show (m : ℚ) * 6 = ((6 * m : Nat) : ℚ) by push_cast; ring]
  exact_mod_cast Iff.rfl

/-- Fidelity of the cross-multiplied quality gate: for a nonzero byte length
`qualityReject` agrees with the source's rational comparison
`sum / (msglen·4) < 10·255`. -/
theorem qualityReject_rat_model (mag : List Nat) (j m : Nat) (hm : m ≠ 0) :
    qualityReject mag j m =
      decide ((deltaSum mag j m : ℚ) / ((m : ℚ) * 4) < 10 * 255) := by
  simp only [qualityReject, if_neg hm]
  rw [decide_eq_decide]
  rw [div_lt_iff (by
    have : 0 < m := Nat.pos_of_ne_zero hm
    positivity)]
  rw [show (10 * 255 : ℚ) * ((m : ℚ) * 4) = ((10 * 255 * (m * 4) : Nat) : ℚ) by
    push_cast; ring]
  exact_mod_cast Iff.rfl

/-- C2 (code_bug): the constructor computes
`checkCrc: options?.checkCrc || true`, which is `true` for *every* input —
in particular for `{checkCrc: false}` — so the delivery gate
`mm.crcOk || !checkCrc` degenerates to `mm.crcOk` and a CRC-invalid
candidate is never delivered, contradicting the option's own documentation
("Set to false to disable checksum validation"). -/
theorem claim2_checkCrc_uncontrollable :
    (∀ o : Option InOptions, (mkOptions o).checkCrc = true) ∧
    deliveryGate (mkOptions (some ⟨none, some false, none, none⟩)).checkCrc false
      = false := by
  refine ⟨fun o => ?_, rfl⟩
  simp only [mkOptions, jsOr, oget]
  rcases o with _ | o
  · rfl
  · rcases o with ⟨_, _ | (_ | _), _, _⟩ <;> rfl

/-- Reading back a typed-array write. -/
theorem tget_tset (l : List Nat) (i v k : Nat) :
    tget (tset l i v) k = if k = i ∧ i < l.length then v else tget l k := by
  simp only [tset, tget, List.getD_eq_getElem?_getD]
  by_cases hi : i < l.length
  · rw [if_pos hi, List.getElem?_set]
    by_cases hk : i = k
    · subst hk
      simp [hi]
    · rw [if_neg hk, if_neg (by tauto)]
  · rw [if_neg hi, if_neg (by tauto)]

/-- `tset` preserves length. -/
theorem tset_length (l : List Nat) (i v : Nat) : (tset l i v).length = l.length := by
  simp only [tset]
  split <;> simp

/-- Two buffers with equal lengths and equal `tget` everywhere are equal. -/
theorem list_eq_of_tget (l1 l2 : List Nat) (hlen : l1.length = l2.length)
    (h : ∀ k, k < l1.length → tget l1 k = tget l2 k) : l1 = l2 := by
  apply List.ext_getElem hlen
  intro n h1 h2
  have hh := h n h1
  simpa [tget, List.getD_eq_getElem?_getD, List.getElem?_eq_getElem h1,
    List.getElem?_eq_getElem h2] using hh

/-- `tget` of a tabulated buffer. -/
theorem tget_map_range (f : Nat → Nat) (L k : Nat) :
    tget ((List.range L).map f) k = if k < L then f k else 0 := by
  by_cases h : k < L
  · simp [tget, List.getD_eq_getElem?_getD, List.getElem?_map,
      List.getElem?_range h, h]
  · rw [tget, List.getD_eq_getElem?_getD, List.getElem?_eq_none (by simp; omega)]
    simp [h]

/-- Effect of the unsigned magnitude loop after `N` iterations: the first
`N` output cells hold the per-pair magnitudes, the rest keep their previous
contents; nothing else changes and nothing is reported. -/
theorem cmvU_fold (data : List Nat) (N : Nat) :
    ∀ mag : List Nat, N ≤ mag.length →
    (List.range N).foldl (fun m k => tset m k (uMagStore data k)) mag =
      (List.range mag.length).map
        fun k => if k < N then uMagStore data k else tget mag k := by
  induction N with
  | zero =>
    intro mag _
    simp only [List.range_zero, List.foldl_nil]
    apply list_eq_of_tget _ _ (by simp)
    intro k hk
    rw [tget_map_range]
    simp [hk]
  | succ N ih =>
    intro mag hN
    rw [List.range_succ, List.foldl_append, List.foldl_cons, List.foldl_nil]
    rw [ih mag (by omega)]
    apply list_eq_of_tget
    · rw [tset_length]
      simp
    · intro k hk
      rw [tset_length] at hk
      simp only [List.length_map, List.length_range] at hk
      rw [tget_tset, tget_map_range, tget_map_range]
      simp only [List.length_map, List.length_range]
      by_cases hkN : k = N
      · subst hkN
        rw [if_pos ⟨rfl, by omega⟩, if_pos hk, if_pos (by omega)]
      · rw [if_neg (by tauto), if_pos hk, if_pos hk]
        by_cases hlt : k < N
        · rw [if_pos hlt, if_pos (by omega)]
        · rw [if_neg hlt, if_neg (by omega)]

/-- In-range pairs store the pair magnitude. -/
theorem uMagStore_in_range (data : List Nat) (k : Nat)
    (h : 2 * k + 1 < data.length) : uMagStore data k = pairMag data k := by
  simp only [uMagStore]
  rw [List.getElem?_eq_getElem (by omega), List.getElem?_eq_getElem h]

/-- Pointwise characterization of the (as-written) `memcpy` loop: index `k`
receives `src[k - dstOffset]` exactly when some iteration
`i ∈ [srcOffset, len)` writes it (and the write is in range); every other
index is untouched. -/
theorem memcpy_fold_tget (src : List Nat) (dstOff : Nat) :
    ∀ (n s : Nat) (dst : List Nat) (k : Nat),
      tget ((List.range' s n).foldl
        (fun d i => tset d (dstOff + i) (tget src i)) dst) k =
        if dstOff + s ≤ k ∧ k < dstOff + s + n ∧ k < dst.length then
          tget src (k - dstOff)
        else tget dst k := by
  intro n
  induction n with
  | zero =>
    intro s dst k
    rw [if_neg (by omega)]
    rfl
  | succ n ih =>
    intro s dst k
    rw [List.range'_succ, List.foldl_cons, ih (s + 1)
      (tset dst (dstOff + s) (tget src s)) k, tset_length]
    by_cases h1 : dstOff + (s + 1) ≤ k ∧ k < dstOff + (s + 1) + n ∧ k < dst.length
    · rw [if_pos h1, if_pos (show dstOff + s ≤ k ∧ k < dstOff + s + (n + 1) ∧
        k < dst.length by omega)]
    · rw [if_neg h1, tget_tset]
      by_cases h2 : k = dstOff + s ∧ dstOff + s < dst.length
      · rw [if_pos h2, if_pos (show dstOff + s ≤ k ∧ k < dstOff + s + (n + 1) ∧
          k < dst.length by omega)]
        rw [show k - dstOff = s by omega]
      · rw [if_neg h2, if_neg (show ¬(dstOff + s ≤ k ∧ k < dstOff + s + (n + 1) ∧
          k < dst.length) by omega)]

/-- Pointwise reads of `memcpy`. -/
theorem memcpy_tget (dst : List Nat) (dstOff : Nat) (src : List Nat)
    (srcOff len k : Nat) :
    tget (memcpy dst dstOff src srcOff len) k =
      if dstOff + srcOff ≤ k ∧ k < dstOff + srcOff + (len - srcOff) ∧
          k < dst.length then
        tget src (k - dstOff)
      else tget dst k :=
  memcpy_fold_tget src dstOff (len - srcOff) srcOff dst k

/-- The phase-correction fold never writes outside `offset + jj + 2` for
`jj` in its iteration list. -/
theorem applyFold_low (offset t : Nat) :
    ∀ (js : List Nat) (m : List Nat), (∀ jj ∈ js, t ≠ offset + jj + 2) →
    tget (js.foldl (fun m j =>
      if tget m (offset + j) > tget m (offset + j + 1) then
        tset m (offset + j + 2) (scaleUp (tget m (offset + j + 2)))
      else
        tset m (offset + j + 2) (scaleDown (tget m (offset + j + 2)))) m) t
      = tget m t := by
  intro js
  induction js with
  | nil => intro m _; rfl
  | cons jj js ih =>
    intro m hm
    rw [List.foldl_cons]
    have hne : t ≠ offset + jj + 2 := hm jj (List.mem_cons_self jj js)
    have htail : ∀ x ∈ js, t ≠ offset + x + 2 :=
      fun x hx => hm x (List.mem_cons_of_mem jj hx)
    rw [ih _ htail]
    split <;> rw [tget_tset, if_neg (by tauto)]

/-- The phase-correction fold preserves buffer length. -/
theorem applyFold_length (offset : Nat) :
    ∀ (js : List Nat) (m : List Nat),
    ((js.foldl (fun m j =>
      if tget m (offset + j) > tget m (offset + j + 1) then
        tset m (offset + j + 2) (scaleUp (tget m (offset + j + 2)))
      else
        tset m (offset + j + 2) (scaleDown (tget m (offset + j + 2)))) m)).length
      = m.length := by
  intro js
  induction js with
  | nil => intro m; rfl
  | cons jj js ih =>
    intro m
    rw [List.foldl_cons, ih]
    split <;> rw [tset_length]

/-- `applyPhaseCorrection` preserves buffer length. -/
theorem applyPhaseCorrection_length (mag : List Nat) (offset : Nat) :
    (applyPhaseCorrection mag offset).length = mag.length :=
  applyFold_length offset _ mag

/-- C1 (code_bug): the restoration invariant fails.  Retry at offset `j = 1`
on a buffer of 240 samples of value 5 with the zero-initialized `aux`: the
snapshot `memcpy(aux, 0, mag, j+16, aux.length)` iterates `i` from
`srcOffset` to `length`, copying `mag[17..223]` to `aux[17..223]` instead of
the message window, so the restore writes `aux[0] = 0` over `mag[17]`.  After
the retry (which yields no CRC-valid message — the restore runs before the
decoder is even consulted), the value inside the window at index 17 is 0, not
its pre-retry value 5; outside the window (index 0) the buffer is unchanged. -/
theorem claim1_restore_bug_eval :
    tget (retryRestore
      (retryPrepare (List.replicate 240 5) (List.replicate 224 0) 1).1
      (retryPrepare (List.replicate 240 5) (List.replicate 224 0) 1).2 1) 17 = 0 ∧
    tget (List.replicate 240 5) 17 = 5 ∧
    tget (retryRestore
      (retryPrepare (List.replicate 240 5) (List.replicate 224 0) 1).1
      (retryPrepare (List.replicate 240 5) (List.replicate 224 0) 1).2 1) 0 = 5 := by
  have hmag1len :
      ((retryPrepare (List.replicate 240 5) (List.replicate 224 0) 1).1).length
        = 240 := by
    simp only [retryPrepare]
    split
    · rw [applyPhaseCorrection_length]
      simp only [List.length_replicate]
    · simp only [List.length_replicate]
  refine ⟨?_, by decide, ?_⟩
  · simp only [retryRestore]
    rw [memcpy_tget, if_pos (by
      rw [hmag1len]
      simp only [PREAMBLE_US, LONG_MSG_BITS]
      omega)]
    rw [show 17 - (1 + PREAMBLE_US * 2) = 0 by decide]
    simp only [retryPrepare]
    rw [memcpy_tget, if_neg (by simp only [PREAMBLE_US]; omega)]
    decide
  · simp only [retryRestore]
    rw [memcpy_tget, if_neg (by simp only [PREAMBLE_US]; omega)]
    simp only [retryPrepare]
    split
    · simp only [applyPhaseCorrection]
      rw [applyFold_low 1 0 _ _ (fun jj _ => by omega)]
      decide
    · decide

/-- C4 (counterexample): `computeMagnitudeVector` does not fail fast.  With
the default unsigned encoding, an odd `size` (here 3, data `[1,2,3]`)
returns normally, silently storing a garbage 0 produced by the out-of-range
trailing read; an undersized output buffer (capacity 1 for `size = 4`)
likewise returns normally with the out-of-range write silently dropped.
No precondition violation is signaled in either case. -/
theorem claim4_counterexample :
    computeMagnitudeVector [1, 2, 3] [0, 0] 3 false = .ok [63895, 0] ∧
    computeMagnitudeVector [1, 2, 3, 4] [0] 4 false = .ok [63895] :=
  ⟨rfl, rfl⟩

/-- C4 (amended): the magnitude computer performs no precondition check —
odd sizes and undersized outputs are processed silently — but for every
even `size` with `size` bytes of
data available and output capacity at least `size / 2`, it returns normally
having written exactly `size / 2` magnitude values, one per I/Q pair, and
leaving every output cell at index `≥ size / 2` unchanged. -/
theorem claim4_even_size_contract (data mag : List Nat) (size : Nat)
    (h2 : size % 2 = 0) (hd : size ≤ data.length) (hm : size / 2 ≤ mag.length) :
    computeMagnitudeVector data mag size false =
      .ok ((List.range mag.length).map
        fun k => if k < size / 2 then pairMag data k else tget mag k) := by
  simp only [computeMagnitudeVector, Bool.false_eq_true, if_false, cmvU]
  rw [show (size + 1) / 2 = size / 2 by omega]
  rw [cmvU_fold data (size / 2) mag hm]
  congr 1
  apply List.map_congr_left
  intro k hk
  by_cases hlt : k < size / 2
  · rw [if_pos hlt, if_pos hlt, uMagStore_in_range data k (by omega)]
  · rw [if_neg hlt, if_neg hlt]

/-- Witness for C4 amended: a concrete even-size call. -/
theorem claim4_witness :
    computeMagnitudeVector [1, 2, 3, 4] [9, 9, 9] 4 false =
      .ok ((List.range [9, 9, 9].length).map
        fun k => if k < 4 / 2 then pairMag [1, 2, 3, 4] k else tget [9, 9, 9] k) :=
  claim4_even_size_contract [1, 2, 3, 4] [9, 9, 9] 4 (by norm_num) (by norm_num)
    (by norm_num)

/-- The constructor writes index `i*129 + q`; for `q ≤ 128` that index
decodes uniquely back to `(i, q)`. -/
theorem MAG_LUT_entry (i q : Nat) (hi : i ≤ 128) (hq : q ≤ 128) :
    MAG_LUT (i * 129 + q) = lutValue i q := by
  have h1 : (i * 129 + q) / 129 = i := by omega
  have h2 : (i * 129 + q) % 129 = q := by omega
  simp only [MAG_LUT, h1, h2]
  rw [if_pos (by omega)]

/-- The ℕ-encoded rounding is exact: `(⌊√(518400·n)⌋ + 1) / 2` equals
`round (√n · 360)` over the reals (`round x = ⌊x + 1/2⌋`; JS `Math.round`
rounds half away from zero, identical for nonnegative arguments). -/
theorem lutValue_round_bridge (n : Nat) :
    ((natSqrt (518400 * n) + 1) / 2 : Nat) = round (Real.sqrt n * 360) := by
  obtain ⟨hs1, hs2⟩ := sqrtAux_isSqrt (518400 * n) (518400 * n) le_rfl
  set s := sqrtAux (518400 * n) (518400 * n) with hsdef
  have hs720 : Real.sqrt ((518400 * n : Nat) : ℝ) = 720 * Real.sqrt n := by
    push_cast
    rw [show ((518400 : ℝ) * n) = 720 ^ 2 * n by norm_num]
    rw [Real.sqrt_mul (by positivity), Real.sqrt_sq (by norm_num)]
  have hle : (s : ℝ) ≤ 720 * Real.sqrt n := by
    rw [← hs720]
    have h1 : ((s * s : Nat) : ℝ) ≤ ((518400 * n : Nat) : ℝ) := by exact_mod_cast hs1
    calc (s : ℝ) = Real.sqrt ((s : ℝ) ^ 2) := by rw [Real.sqrt_sq (by positivity)]
      _ ≤ Real.sqrt ((518400 * n : Nat) : ℝ) := by
          apply Real.sqrt_le_sqrt
          push_cast at h1 ⊢
          nlinarith
  have hlt : 720 * Real.sqrt n < (s : ℝ) + 1 := by
    rw [← hs720]
    have h2 : ((518400 * n : Nat) : ℝ) < ((s : ℝ) + 1) ^ 2 := by
      have hcast : ((518400 * n : Nat) : ℝ) < (((s + 1) * (s + 1) : Nat) : ℝ) := by
        exact_mod_cast hs2
      push_cast at hcast ⊢
      nlinarith [hcast]
    calc Real.sqrt ((518400 * n : Nat) : ℝ)
        < Real.sqrt (((s : ℝ) + 1) ^ 2) := by
          apply Real.sqrt_lt_sqrt (by positivity) h2
      _ = (s : ℝ) + 1 := Real.sqrt_sq (by positivity)
  rw [round_eq]
  have hkey : Real.sqrt n * 360 + 1 / 2 = (720 * Real.sqrt n + 1) / 2 := by ring
  rw [hkey]
  have hz1 : 2 * (((s + 1) / 2 : Nat) : ℝ) ≤ (s : ℝ) + 1 := by
    exact_mod_cast (by omega : 2 * ((s + 1) / 2) ≤ s + 1)
  have hz2 : (s : ℝ) ≤ 2 * (((s + 1) / 2 : Nat) : ℝ) := by
    exact_mod_cast (by omega : s ≤ 2 * ((s + 1) / 2))
  have hgoal : ⌊(720 * Real.sqrt n + 1) / 2⌋ = (((s + 1) / 2 : Nat) : ℤ) := by
    rw [Int.floor_eq_iff]
    refine ⟨?_, ?_⟩
    · rw [Int.cast_natCast]
      linarith
    · rw [Int.cast_natCast]
      linarith
  rw [hgoal]
  simp [natSqrt, hsdef]

/-- C3 (counterexample): the table is *not* of size `129 * 129`; the source
allocates `new Uint16Array(129 * 129 * 2)` (the C original's byte count used
as an element count). -/
theorem claim3_size_counterexample : MAG_LUT_length ≠ 129 * 129 := by decide

/-- C3 (amended): the table is allocated with `129·129·2` entries; every
entry at index `i*129 + q` with `i, q ∈ [0,128]` equals
`round(√(i² + q²) · 360)` (scale constant K = 360), and the entries are
monotonically non-decreasing in `i` holding `q` fixed and in `q` holding `i`
fixed. -/
theorem claim3_table_contract :
    MAG_LUT_length = 129 * 129 * 2 ∧
    (∀ i q : Nat, i ≤ 128 → q ≤ 128 →
      (MAG_LUT (i * 129 + q) : ℤ) =
        round (Real.sqrt ((i : ℝ) ^ 2 + (q : ℝ) ^ 2) * 360)) ∧
    (∀ i i' q : Nat, i ≤ i' → i' ≤ 128 → q ≤ 128 →
      MAG_LUT (i * 129 + q) ≤ MAG_LUT (i' * 129 + q)) ∧
    (∀ i q q' : Nat, q ≤ q' → i ≤ 128 → q' ≤ 128 →
      MAG_LUT (i * 129 + q) ≤ MAG_LUT (i * 129 + q')) := by
  refine ⟨rfl, fun i q hi hq => ?_, fun i i' q hii hi hq => ?_,
    fun i q q' hqq hi hq => ?_⟩
  · rw [MAG_LUT_entry i q hi hq]
    have hb := lutValue_round_bridge (i * i + q * q)
    rw [show Real.sqrt ((i : ℝ) ^ 2 + (q : ℝ) ^ 2)
        = Real.sqrt ((i * i + q * q : Nat) : ℝ) by push_cast; ring_nf]
    rw [← hb]
    rfl
  · rw [MAG_LUT_entry i q (le_trans hii hi) hq, MAG_LUT_entry i' q hi hq]
    have := natSqrt_le_natSqrt
      (Nat.mul_le_mul_left 518400
        (by nlinarith : i * i + q * q ≤ i' * i' + q * q))
    simp only [lutValue]
    omega
  · rw [MAG_LUT_entry i q hi (le_trans hqq hq), MAG_LUT_entry i q' hi hq]
    have := natSqrt_le_natSqrt
      (Nat.mul_le_mul_left 518400
        (by nlinarith : i * i + q * q ≤ i * i + q' * q'))
    simp only [lutValue]
    omega

/-- Witness for C3 amended: a concrete entry equals the real rounding and a
concrete monotonicity instance holds. -/
theorem claim3_witness :
    (MAG_LUT (3 * 129 + 4) : ℤ) =
      round (Real.sqrt ((3 : ℝ) ^ 2 + (4 : ℝ) ^ 2) * 360) ∧
    MAG_LUT (2 * 129 + 7) ≤ MAG_LUT (5 * 129 + 7) :=
  ⟨claim3_table_contract.2.1 3 4 (by norm_num) (by norm_num),
   claim3_table_contract.2.2.1 2 5 7 (by norm_num) (by norm_num) (by norm_num)⟩

/-- Each slicing step appends exactly one decoded bit value. -/
theorem sliceLoop_succ (mag : List Nat) (j b : Nat) :
    ∃ v, (sliceLoop mag j (b + 1)).1 = (sliceLoop mag j b).1 ++ [v] := by
  simp only [sliceLoop]
  repeat' split
  all_goals exact ⟨_, rfl⟩

/-- The bit buffer after `b` steps has exactly `b` entries. -/
theorem sliceLoop_len (mag : List Nat) (j : Nat) :
    ∀ b, (sliceLoop mag j b).1.length = b := by
  intro b
  induction b with
  | zero => rfl
  | succ b ih =>
    obtain ⟨v, hv⟩ := sliceLoop_succ mag j b
    rw [hv]
    simp [ih]

/-- Bits already decoded are never revisited by later slicing steps. -/
theorem sliceLoop_stable (mag : List Nat) (j : Nat) :
    ∀ b' b i, b ≤ b' → i < b →
      (sliceLoop mag j b').1.getD i 0 = (sliceLoop mag j b).1.getD i 0 := by
  intro b'
  induction b' with
  | zero =>
    intro b i hb hi
    exact absurd hi (by omega)
  | succ b' ih =>
    intro b i hb hi
    rcases Nat.eq_or_lt_of_le hb with he | hl
    · rw [he]
    · obtain ⟨v, hv⟩ := sliceLoop_succ mag j b'
      rw [hv, List.getD_append _ _ _ i (by rw [sliceLoop_len]; omega)]
      exact ih b i (by omega) hi

/-- Reading the just-appended entry. -/
theorem getD_append_len (l : List Nat) (v : Nat) (i : Nat) (hi : i = l.length) :
    (l ++ [v]).getD i 0 = v := by
  subst hi
  rw [List.getD_eq_getElem?_getD, List.getElem?_concat_length]
  rfl

/-- C8: the bit-slicing decision rule.  For every bit index `b < 112` of a
candidate at offset `j`, with `low = mag[j + 2b + 16]` and
`high = mag[j + 2b + 17]`: if `b > 0` and `|low − high| < 256` the bit
inherits the previous bit's value; else if `low = high` the bit is erased
(value 2), and the error counter is incremented exactly when additionally
`b < 56`; else the bit is 1 when `low > high` and 0 when `low < high`. -/
theorem claim8_bit_decision (mag : List Nat) (j b : Nat) (hb : b < LONG_MSG_BITS) :
    ((sliceLoop mag j LONG_MSG_BITS).1.getD b 0 =
      if 0 < b ∧ ((tget mag (j + 2 * b + PREAMBLE_US * 2) : Int) -
          tget mag (j + 2 * b + PREAMBLE_US * 2 + 1)).natAbs < 256 then
        (sliceLoop mag j LONG_MSG_BITS).1.getD (b - 1) 0
      else if tget mag (j + 2 * b + PREAMBLE_US * 2) =
          tget mag (j + 2 * b + PREAMBLE_US * 2 + 1) then 2
      else if tget mag (j + 2 * b + PREAMBLE_US * 2 + 1) <
          tget mag (j + 2 * b + PREAMBLE_US * 2) then 1
      else 0) ∧
    ((sliceLoop mag j (b + 1)).2 = (sliceLoop mag j b).2 +
      if ¬(0 < b ∧ ((tget mag (j + 2 * b + PREAMBLE_US * 2) : Int) -
            tget mag (j + 2 * b + PREAMBLE_US * 2 + 1)).natAbs < 256) ∧
          tget mag (j + 2 * b + PREAMBLE_US * 2) =
            tget mag (j + 2 * b + PREAMBLE_US * 2 + 1) ∧ b < SHORT_MSG_BITS
        then 1 else 0) := by
  have hstab := sliceLoop_stable mag j LONG_MSG_BITS (b + 1) b hb (by omega)
  constructor
  · rw [hstab]
    by_cases h1 : 0 < b ∧ ((tget mag (j + 2 * b + PREAMBLE_US * 2) : Int) -
        tget mag (j + 2 * b + PREAMBLE_US * 2 + 1)).natAbs < 256
    · rw [if_pos h1,
        sliceLoop_stable mag j LONG_MSG_BITS b (b - 1) (by omega) (by omega)]
      simp only [sliceLoop]
      rw [if_pos h1]
      exact getD_append_len _ _ _ (sliceLoop_len mag j b).symm
    · rw [if_neg h1]
      by_cases h2 : tget mag (j + 2 * b + PREAMBLE_US * 2) =
          tget mag (j + 2 * b + PREAMBLE_US * 2 + 1)
      · rw [if_pos h2]
        simp only [sliceLoop]
        rw [if_neg h1, if_pos h2]
        exact getD_append_len _ _ _ (sliceLoop_len mag j b).symm
      · rw [if_neg h2]
        by_cases h3 : tget mag (j + 2 * b + PREAMBLE_US * 2 + 1) <
            tget mag (j + 2 * b + PREAMBLE_US * 2)
        · rw [if_pos h3]
          simp only [sliceLoop]
          rw [if_neg h1, if_neg h2, if_pos h3]
          exact getD_append_len _ _ _ (sliceLoop_len mag j b).symm
        · rw [if_neg h3]
          simp only [sliceLoop]
          rw [if_neg h1, if_neg h2, if_neg h3]
          exact getD_append_len _ _ _ (sliceLoop_len mag j b).symm
  · simp only [sliceLoop]
    by_cases h1 : 0 < b ∧ ((tget mag (j + 2 * b + PREAMBLE_US * 2) : Int) -
        tget mag (j + 2 * b + PREAMBLE_US * 2 + 1)).natAbs < 256
    · rw [if_pos h1, if_neg (show ¬(¬(0 < b ∧
          ((tget mag (j + 2 * b + PREAMBLE_US * 2) : Int) -
            tget mag (j + 2 * b + PREAMBLE_US * 2 + 1)).natAbs < 256) ∧
          tget mag (j + 2 * b + PREAMBLE_US * 2) =
            tget mag (j + 2 * b + PREAMBLE_US * 2 + 1) ∧ b < SHORT_MSG_BITS)
          from fun hcon => hcon.1 h1)]
      simp
    · rw [if_neg h1]
      by_cases h2 : tget mag (j + 2 * b + PREAMBLE_US * 2) =
          tget mag (j + 2 * b + PREAMBLE_US * 2 + 1)
      · rw [if_pos h2]
        by_cases h3 : b < SHORT_MSG_BITS
        · rw [if_pos (show 2 * b < SHORT_MSG_BITS * 2 by
            simp only [SHORT_MSG_BITS] at h3 ⊢; omega),
            if_pos ⟨h1, h2, h3⟩]
        · rw [if_neg (show ¬(2 * b < SHORT_MSG_BITS * 2) by
            simp only [SHORT_MSG_BITS] at h3 ⊢; omega),
            if_neg (show ¬(¬(0 < b ∧
              ((tget mag (j + 2 * b + PREAMBLE_US * 2) : Int) -
                tget mag (j + 2 * b + PREAMBLE_US * 2 + 1)).natAbs < 256) ∧
              tget mag (j + 2 * b + PREAMBLE_US * 2) =
                tget mag (j + 2 * b + PREAMBLE_US * 2 + 1) ∧ b < SHORT_MSG_BITS)
              from fun hcon => h3 hcon.2.2)]
          simp
      · rw [if_neg h2]
        by_cases h3 : tget mag (j + 2 * b + PREAMBLE_US * 2 + 1) <
            tget mag (j + 2 * b + PREAMBLE_US * 2)
        · rw [if_pos h3, if_neg (show ¬(¬(0 < b ∧
              ((tget mag (j + 2 * b + PREAMBLE_US * 2) : Int) -
                tget mag (j + 2 * b + PREAMBLE_US * 2 + 1)).natAbs < 256) ∧
              tget mag (j + 2 * b + PREAMBLE_US * 2) =
                tget mag (j + 2 * b + PREAMBLE_US * 2 + 1) ∧ b < SHORT_MSG_BITS)
              from fun hcon => h2 hcon.2.1)]
          simp
        · rw [if_neg h3, if_neg (show ¬(¬(0 < b ∧
              ((tget mag (j + 2 * b + PREAMBLE_US * 2) : Int) -
                tget mag (j + 2 * b + PREAMBLE_US * 2 + 1)).natAbs < 256) ∧
              tget mag (j + 2 * b + PREAMBLE_US * 2) =
                tget mag (j + 2 * b + PREAMBLE_US * 2 + 1) ∧ b < SHORT_MSG_BITS)
              from fun hcon => h2 hcon.2.1)]
          simp

/-- Witness for C8: bit 0 of the all-zero (empty) buffer — `low = high = 0`,
so the bit is erased and, being in the first 56 bits, counted as an error. -/
theorem claim8_witness :
    ((sliceLoop ([] : List Nat) 0 LONG_MSG_BITS).1.getD 0 0 =
      if 0 < 0 ∧ ((tget [] (0 + 2 * 0 + PREAMBLE_US * 2) : Int) -
          tget [] (0 + 2 * 0 + PREAMBLE_US * 2 + 1)).natAbs < 256 then
        (sliceLoop ([] : List Nat) 0 LONG_MSG_BITS).1.getD (0 - 1) 0
      else if tget [] (0 + 2 * 0 + PREAMBLE_US * 2) =
          tget [] (0 + 2 * 0 + PREAMBLE_US * 2 + 1) then 2
      else if tget [] (0 + 2 * 0 + PREAMBLE_US * 2 + 1) <
          tget [] (0 + 2 * 0 + PREAMBLE_US * 2) then 1
      else 0) ∧
    ((sliceLoop ([] : List Nat) 0 (0 + 1)).2 = (sliceLoop ([] : List Nat) 0 0).2 +
      if ¬(0 < 0 ∧ ((tget [] (0 + 2 * 0 + PREAMBLE_US * 2) : Int) -
            tget [] (0 + 2 * 0 + PREAMBLE_US * 2 + 1)).natAbs < 256) ∧
          tget [] (0 + 2 * 0 + PREAMBLE_US * 2) =
            tget [] (0 + 2 * 0 + PREAMBLE_US * 2 + 1) ∧ 0 < SHORT_MSG_BITS
        then 1 else 0) :=
  claim8_bit_decision [] 0 0 (by norm_num [LONG_MSG_BITS])

/-- C5 (counterexample): a retry at offset `j = 1 > 0` where the
out-of-phase heuristic returns 0 and consequently no phase correction is
applied, although applying the transformation would have changed the buffer
— so the heuristic's return value *does* affect whether correction happens,
refuting the claim that correction is unconditional for `j > 0`. -/
theorem claim5_counterexample :
    detectOutOfPhase ((List.replicate 240 0).set 19 100) 1 = 0 ∧
    (retryPrepare ((List.replicate 240 0).set 19 100) (List.replicate 224 0) 1).1
      = (List.replicate 240 0).set 19 100 ∧
    applyPhaseCorrection ((List.replicate 240 0).set 19 100) 1
      ≠ (List.replicate 240 0).set 19 100 := by
  refine ⟨by decide, ?_, ?_⟩
  · simp only [retryPrepare]
    rw [if_neg (by decide)]
  · intro hcon
    have h80 : tget (applyPhaseCorrection ((List.replicate 240 0).set 19 100) 1) 19
        = 80 := by
      simp only [applyPhaseCorrection]
      rw [show List.range' 16 (((LONG_MSG_BITS - 1) * 2 - 16) / 2) 2
          = 16 :: List.range' 18 102 2 by
        rw [show ((LONG_MSG_BITS - 1) * 2 - 16) / 2 = 102 + 1 by decide,
          List.range'_succ]]
      rw [List.foldl_cons, if_neg (by decide)]
      rw [applyFold_low 1 19 _ _ (fun jj hjj => by
        obtain ⟨i, _, rfl⟩ := List.mem_range'.mp hjj
        omega)]
      rw [tget_tset, if_pos ⟨rfl, by
        simp only [List.length_set, List.length_replicate]
        omega⟩]
      decide
    rw [hcon] at h80
    have h100 : tget ((List.replicate 240 0).set 19 100) 19 = 100 := by decide
    omega

/-- C5 (amended): at a retry with `0 < j`, phase correction is applied
exactly when `detectOutOfPhase` reports a nonzero direction; which nonzero
direction was detected does not influence the transformation, but a zero
verdict suppresses it (and `j = 0` suppresses it as well). -/
theorem claim5_correction_iff_heuristic (mag aux : List Nat) (j : Nat)
    (hj : 0 < j) :
    (detectOutOfPhase mag j ≠ 0 →
      (retryPrepare mag aux j).1 = applyPhaseCorrection mag j) ∧
    (detectOutOfPhase mag j = 0 → (retryPrepare mag aux j).1 = mag) := by
  constructor <;> intro h
  · simp only [retryPrepare]
    rw [if_pos ⟨by omega, h⟩]
  · simp only [retryPrepare]
    rw [if_neg (by simp [h])]

set_option maxRecDepth 40000 in
/-- Witness for C5 amended: on a constant buffer the heuristic fires and the
retry buffer is exactly the phase-corrected one. -/
theorem claim5_witness :
    (retryPrepare (List.replicate 240 5) (List.replicate 224 0) 1).1
      = applyPhaseCorrection (List.replicate 240 5) 1 :=
  (claim5_correction_iff_heuristic (List.replicate 240 5)
    (List.replicate 224 0) 1 (by norm_num)).1 (by decide)

/-- C6 (counterexample): a candidate window whose per-bit deltas are all
3000 (sum 168000 over a 56-bit message).  The code's average is
`168000 / (7·4) = 6000 ≥ 2550`, so the gate does *not* reject; under the
claim's reading — divide by `L·4` with `L = 56` the resolved *bit* length —
the average would be `168000 / 224 = 750 < 2550` and the candidate would be
rejected.  The claim's divisor is therefore wrong. -/
theorem claim6_counterexample :
    qualityReject
      (List.replicate 16 0 ++ (List.range 112).map fun k => if k % 2 = 0 then 3000 else 0)
      0 7 = false ∧
    qualityRejectSpec
      (List.replicate 16 0 ++ (List.range 112).map fun k => if k % 2 = 0 then 3000 else 0)
      0 56 = true := by
  decide

/-- C6 (amended): the gate sums `|low - high|` over the `L = 8·msglen` bit
positions of the resolved message and divides by `msglen · 4` — `msglen` is
the *byte* length, so the divisor is half the bit count — rejecting exactly
when the quotient is below `10 · 255`, i.e. exactly when
`2 · sum < 2550 · L`. -/
theorem claim6_gate_divisor (mag : List Nat) (j m : Nat) (hm : 0 < m) :
    (qualityReject mag j m = true ↔
      2 * deltaSum mag j m < 10 * 255 * (8 * m)) := by
  simp only [qualityReject]
  rw [if_neg (by omega), decide_eq_true_iff]
  omega

/-- Witness for C6 amended: at the empty buffer with `msglen = 7` bytes both
sides of the equivalence hold (sum 0). -/
theorem claim6_witness :
    qualityReject [] 0 7 = true ↔ 2 * deltaSum [] 0 7 < 10 * 255 * (8 * 7) :=
  claim6_gate_divisor [] 0 7 (by norm_num)

/-- C10: `applyPhaseCorrection` stores into a `Uint16Array`, so the
scale-up store is `⌊5m/4⌋ mod 2^16`.  For `m ≤ 52428` this equals `⌊5m/4⌋`
exactly; the table's maximum entry `MAG_LUT(128·129+128) =
round(128·√2·360) = 65167 ≥ 52429` is attainable and wraps: its stored
scale-up is smaller than the sample itself. -/
theorem claim10_scale_up_wraps :
    (∀ m, m ≤ 52428 → scaleUp m = m * 5 / 4) ∧
    MAG_LUT (128 * 129 + 128) = 65167 ∧
    52429 ≤ MAG_LUT (128 * 129 + 128) ∧
    scaleUp (MAG_LUT (128 * 129 + 128)) < MAG_LUT (128 * 129 + 128) := by
  refine ⟨fun m hm => ?_, by decide, by decide, by decide⟩
  simp only [scaleUp]
  omega

/-- Witness for C10: the boundary value 52428 scales without wrapping. -/
theorem claim10_witness : scaleUp 52428 = 52428 * 5 / 4 :=
  claim10_scale_up_wraps.1 52428 (by norm_num)

/-- `process` depends only on the three boolean options and the private
`_mag` buffer — the `options.mag` field is dead. -/
theorem process_skip_optmag (parse : List Nat → Bool → Bool)
    (msgLenOf : Nat → Nat) (o1 o2 : Options) (mm : Option (List Nat))
    (data : List Nat) (size : Nat)
    (ha : o1.aggressive = o2.aggressive) (hc : o1.checkCrc = o2.checkCrc)
    (hco : o1.crcOnly = o2.crcOnly) :
    (process parse msgLenOf ⟨o1, mm⟩ data size).2 =
      (process parse msgLenOf ⟨o2, mm⟩ data size).2 ∧
    (process parse msgLenOf ⟨o1, mm⟩ data size).1._mag =
      (process parse msgLenOf ⟨o2, mm⟩ data size).1._mag := by
  constructor <;> simp only [process, ha, hc, hco]

/-- `processAll` likewise never consults `options.mag`. -/
theorem processAll_skip_optmag (parse : List Nat → Bool → Bool)
    (msgLenOf : Nat → Nat) (o1 o2 : Options)
    (ha : o1.aggressive = o2.aggressive) (hc : o1.checkCrc = o2.checkCrc)
    (hco : o1.crcOnly = o2.crcOnly) :
    ∀ (inputs : List (List Nat × Nat)) (mm : Option (List Nat)),
      (processAll parse msgLenOf ⟨o1, mm⟩ inputs).2 =
        (processAll parse msgLenOf ⟨o2, mm⟩ inputs).2 := by
  intro inputs
  induction inputs with
  | nil => intro mm; rfl
  | cons x rest ih =>
    intro mm
    obtain ⟨xd, xs⟩ := x
    obtain ⟨hout, hmag⟩ :=
      process_skip_optmag parse msgLenOf o1 o2 mm xd xs ha hc hco
    have hopt1 : (process parse msgLenOf ⟨o1, mm⟩ xd xs).1 =
        ⟨o1, (process parse msgLenOf ⟨o1, mm⟩ xd xs).1._mag⟩ := by
      simp [process]
    have hopt2 : (process parse msgLenOf ⟨o2, mm⟩ xd xs).1 =
        ⟨o2, (process parse msgLenOf ⟨o2, mm⟩ xd xs).1._mag⟩ := by
      simp [process]
    simp only [processAll]
    rw [hout, hopt1, hopt2, hmag,
      ih ((process parse msgLenOf ⟨o2, mm⟩ xd xs).1._mag)]

/-- C9: the `mag` constructor option is never used by `process` — for every
decoder, length lookup, option set, and sequence of `(data, size)` inputs,
two Demodulators differing only in the `mag` option produce identical
callback sequences.  `process` allocates its own buffer of length `size / 2`
on the first call (`_mag` starts out unset) and reuses its private buffer on
every subsequent call; the user-supplied array is never read or written. -/
theorem claim9_mag_option_unused (parse : List Nat → Bool → Bool)
    (msgLenOf : Nat → Nat) (a c co : Option Bool)
    (m1 m2 : Option (List Nat)) (inputs : List (List Nat × Nat)) :
    (processAll parse msgLenOf (mkDemodulator (some ⟨a, c, co, m1⟩)) inputs).2 =
      (processAll parse msgLenOf (mkDemodulator (some ⟨a, c, co, m2⟩)) inputs).2 :=
  processAll_skip_optmag parse msgLenOf
    (mkOptions (some ⟨a, c, co, m1⟩)) (mkOptions (some ⟨a, c, co, m2⟩))
    rfl rfl rfl inputs none

set_option maxHeartbeats 1000000 in
/-- Each executed iteration either strictly advances the scan offset or is
the single-step rewind that turns correction on for the same offset. -/
theorem stepBody_progress (parse : List Nat → Bool → Bool)
    (msgLenOf : Nat → Nat) (a c co : Bool) (s : ScanState) :
    s.j < (stepBody parse msgLenOf a c co s).j ∨
    ((stepBody parse msgLenOf a c co s).j = s.j ∧ s.useCorrection = false ∧
      (stepBody parse msgLenOf a c co s).useCorrection = true) := by
  simp only [stepBody, scanTail]
  repeat' split
  all_goals dsimp only
  all_goals
    first
    | (left; omega)
    | (right; refine ⟨rfl, ?_, rfl⟩; simp_all)
    | simp_all

/-- The scan measure strictly decreases across an executed iteration. -/
theorem stepBody_measure (parse : List Nat → Bool → Bool)
    (msgLenOf : Nat → Nat) (a c co : Bool) (B : Nat) (s : ScanState)
    (hj : s.j < B) :
    scanMeasure B (stepBody parse msgLenOf a c co s) < scanMeasure B s := by
  rcases stepBody_progress parse msgLenOf a c co s with hp | hp
  · simp only [scanMeasure]
    have c1 : cond (stepBody parse msgLenOf a c co s).useCorrection 0 1 ≤ 1 := by
      rcases (stepBody parse msgLenOf a c co s).useCorrection <;> simp
    omega
  · simp only [scanMeasure, hp.1, hp.2.1, hp.2.2, cond_true, cond_false]
    omega

/-- The examined-offset trace of any scan satisfies the progress relation
between every pair of consecutive entries. -/
theorem scanLoopT_chain (parse : List Nat → Bool → Bool)
    (msgLenOf : Nat → Nat) (a c co : Bool) (B : Nat) :
    ∀ (N : Nat) (s : ScanState), scanMeasure B s ≤ N →
      List.Chain' stepRel (scanLoopT parse msgLenOf a c co B s).2 := by
  intro N
  induction N with
  | zero =>
    intro s h
    rw [scanLoopT]
    split
    · exfalso
      rename_i hj
      simp only [scanMeasure] at h
      rcases hcu : s.useCorrection <;>
        rw [hcu] at h <;> simp only [cond_true, cond_false] at h <;> omega
    · simp
  | succ N ih =>
    intro s h
    rw [scanLoopT]
    split
    · rename_i hj
      simp only
      rw [List.chain'_cons']
      have hdec := stepBody_measure parse msgLenOf a c co B s hj
      refine ⟨?_, ih _ (by omega)⟩
      intro y hy
      rw [scanLoopT] at hy
      split at hy
      · simp only [List.head?_cons, Option.mem_def, Option.some.injEq] at hy
        subst hy
        rcases stepBody_progress parse msgLenOf a c co s with hp | hp
        · exact Or.inl hp
        · exact Or.inr ⟨hp.1, hp.2.1, hp.2.2⟩
      · simp at hy
    · simp

/-- Along a chained trace, every later entry's offset is at least the
successor entry's offset. -/
theorem chain_stepRel_le : ∀ (l : List (Nat × Bool)) (x : Nat × Bool),
    List.Chain' stepRel (x :: l) → ∀ y ∈ l, x.1 ≤ y.1 := by
  intro l
  induction l with
  | nil =>
    intro x _ y hy
    simp at hy
  | cons z t ih =>
    intro x h y hy
    rw [List.chain'_cons] at h
    rcases List.mem_cons.mp hy with rfl | hy'
    · rcases h.1 with h1 | h1
      · omega
      · omega
    · have hzy := ih z h.2 y hy'
      rcases h.1 with h1 | h1 <;> omega

/-- From the chain property: the offsets examined with correction are
pairwise strictly increasing — no offset is retried with correction twice. -/
theorem chain_stepRel_filter : ∀ l : List (Nat × Bool),
    List.Chain' stepRel l →
    List.Pairwise (fun x y : Nat × Bool => x.1 < y.1)
      (l.filter fun e => e.2) := by
  intro l
  induction l with
  | nil => intro _; simp
  | cons x t ih =>
    intro h
    have ht : List.Chain' stepRel t := (List.chain'_cons'.mp h).2
    by_cases hx : x.2 = true
    · rw [List.filter_cons_of_pos (by simp [hx])]
      refine List.Pairwise.cons ?_ (ih ht)
      intro y hy
      have hyt : y ∈ t := List.mem_of_mem_filter hy
      cases t with
      | nil => simp at hyt
      | cons z t' =>
        have hxz : stepRel x z := (List.chain'_cons.mp h).1
        have hxz1 : x.1 < z.1 := by
          rcases hxz with h1 | h1
          · exact h1
          · rw [hx] at h1
            exact absurd h1.2.1 (by simp)
        rcases List.mem_cons.mp hyt with rfl | hyt'
        · exact hxz1
        · have hz := chain_stepRel_le t' z (List.chain'_cons.mp h).2 y hyt'
          omega
    · rw [List.filter_cons_of_neg (by simp [hx])]
      exact ih ht

/-- C7: progress guarantee.  Over a full scan of any magnitude buffer (for
any decoder, length lookup and options), consecutive examined offsets
satisfy: the offset strictly increases, except that an offset may be
revisited once via the single-step rewind that switches correction on
(`useCorrection = false → true` at the same offset); consequently the
offsets examined with correction are pairwise distinct (strictly
increasing) — no offset is retried more than once.  Termination of the scan
is witnessed by `scanLoopT` being a total function (it compiles with the
`scanMeasure` termination argument). -/
theorem claim7_progress (parse : List Nat → Bool → Bool)
    (msgLenOf : Nat → Nat) (a c co : Bool) (mag : List Nat) (maglen : Nat) :
    List.Chain' stepRel
      (detectMessageFull parse msgLenOf a c co mag maglen).2 ∧
    List.Pairwise (fun x y : Nat × Bool => x.1 < y.1)
      (((detectMessageFull parse msgLenOf a c co mag maglen).2).filter
        fun e => e.2) := by
  have hch : List.Chain' stepRel
      (detectMessageFull parse msgLenOf a c co mag maglen).2 :=
    scanLoopT_chain parse msgLenOf a c co (maglen - FULL_LEN * 2) _ _ le_rfl
  exact ⟨hch, chain_stepRel_filter _ hch⟩

end ModeS
